import Mathlib

/-!
Verification of the transcoding engine of `odbc2parquet`
(`src/parquet_buffer.rs`, `src/insert.rs`).

All byte strings are modelled as `List Nat` (each element a byte value),
machine integers as `Nat`/`Int` with explicit `% 2 ^ w` where the width
matters, and fallible code (including Rust panics: slice-index underflow,
`try_into().unwrap()`, `todo!()`, arithmetic overflow under debug
assertions) as `Option`.
-/

/-! ### Little/big-endian byte strings -/

/-- The `k` low-order bytes of `m`, least significant first. -/
def leBytes : Nat → Nat → List Nat
  | 0, _ => []
  | k + 1, m => m % 256 :: leBytes k (m / 256)

/-- The `k`-byte two's-complement big-endian representation of the integer
`n`, i.e. the bytes of `n mod 2 ^ (8 k)`, most significant first.  This is
what `i128::to_be_bytes` produces for `k = 16`. -/
def intBytes (k : Nat) (n : Int) : List Nat :=
  (leBytes k (n % (2 ^ (8 * k))).toNat).reverse

@[simp] theorem leBytes_length (k m : Nat) : (leBytes k m).length = k := by
  induction k generalizing m with
  | zero => rfl
  | succ k ih => simp [leBytes, ih]

@[simp] theorem intBytes_length (k : Nat) (n : Int) : (intBytes k n).length = k := by
  simp [intBytes]

/-! ### Radix-10 parsing (the `atoi` crate)

`from_radix_10` accumulates ASCII digits from the front of the byte string
until the first non-digit, returning the value and the number of bytes
consumed.  `from_radix_10_signed` additionally consumes one optional
leading `+`/`-`.  The accumulation in the crate is unchecked machine
arithmetic; the bounded-width instances overflow outside their range (a
panic under debug assertions), which call sites below surface as `none`.
The `BigInt` instance is exact. -/

def from_radix_10_acc : List Nat → Nat → Nat → Nat × Nat
  | [], acc, consumed => (acc, consumed)
  | c :: rest, acc, consumed =>
    if 48 ≤ c ∧ c ≤ 57 then
      from_radix_10_acc rest (acc * 10 + (c - 48)) (consumed + 1)
    else
      (acc, consumed)

def from_radix_10 (bytes : List Nat) : Nat × Nat :=
  from_radix_10_acc bytes 0 0

def from_radix_10_signed (bytes : List Nat) : Int × Nat :=
  match bytes with
  | 43 :: rest =>
    let p := from_radix_10 rest
    ((p.1 : Int), p.2 + 1)
  | 45 :: rest =>
    let p := from_radix_10 rest
    (-(p.1 : Int), p.2 + 1)
  | _ =>
    let p := from_radix_10 bytes
    ((p.1 : Int), p.2)

/-! ### `num_bigint::BigInt::to_signed_bytes_be`

The library's output is the minimal-length two's-complement big-endian
representation: the least `k ≥ 1` with `-2 ^ (8 k - 1) ≤ n < 2 ^ (8 k - 1)`
bytes.  `bytesNeededPos m` computes that `k` for magnitude `m` (where a
negative `n` contributes magnitude `|n| - 1`). -/

def bytesNeededPos (m : Nat) : Nat :=
  if m < 128 then 1 else 1 + bytesNeededPos (m / 256)
  termination_by m
  decreasing_by exact Nat.div_lt_self (by omega) (by omega)

def minSignedLen (n : Int) : Nat :=
  if n < 0 then bytesNeededPos (n.natAbs - 1) else bytesNeededPos n.toNat

/-- Model of `BigInt::to_signed_bytes_be`: minimal-length two's-complement
big-endian byte string of `n`. -/
def toSignedBytesBE (n : Int) : List Nat :=
  intBytes (minSignedLen n) n

/-! ### The two decimal encoders (`src/parquet_buffer.rs`) -/

/-- `Vec::resize(n, fill)`: truncate, or pad at the end with `fill`. -/
def vecResize {α : Type} (l : List α) (n : Nat) (fill : α) : List α :=
  if n ≤ l.length then l.take n else l ++ List.replicate (n - l.length) fill

/-- `slice::rotate_right(k)` (used with `k ≤ l.length`): the last `k`
elements move to the front. -/
def rotateRightList {α : Type} (l : List α) (k : Nat) : List α :=
  l.drop (l.length - k) ++ l.take (l.length - k)

/-- The first half shared verbatim by both encoders: drop every `.` byte
from the decimal text and parse the remaining signed digit string. -/
def parsed_decimal (decimal : List Nat) : Int :=
  (from_radix_10_signed (decimal.filter (fun c => c != 46))).1

/-- Faithful model of `ParquetBuffer::twos_complement_i128`: strip the
decimal point, parse the signed digits into an `i128`, and keep the low
`length` bytes of its 16-byte big-endian representation.  A parsed value
outside the `i128` range is an unchecked arithmetic overflow, and a target
`length > 16` makes the slice index `16 - length` underflow; both are
panics, modelled as `none`. -/
def twos_complement_i128 (decimal : List Nat) (length : Nat) : Option (List Nat) :=
  let num := parsed_decimal decimal
  if length ≤ 16 ∧ -(2 ^ 127) ≤ num ∧ num < 2 ^ 127 then
    some ((intBytes 16 num).drop (16 - length))
  else none

/-- Faithful model of `ParquetBuffer::twos_complement_big_int`: strip the
decimal point, parse the signed digits into a `BigInt`, take its minimal
signed big-endian bytes, `resize` to `length` with fill `255` for negative
values and `0` otherwise, and `rotate_right` so the fill bytes lead.  When
the minimal representation is already longer than `length`, the subtraction
`length - out.len()` underflows (a panic), modelled as `none`. -/
def twos_complement_big_int (decimal : List Nat) (length : Nat) : Option (List Nat) :=
  let num := parsed_decimal decimal
  let out := toSignedBytesBE num
  let fill : Nat := if num < 0 then 255 else 0
  if out.length ≤ length then
    some (rotateRightList (vecResize out length fill) (length - out.length))
  else none

/-- The path selection of `ParquetBuffer::write_decimal`: precision below
39 uses the native 128-bit encoder, everything else the big-integer
encoder.  The target byte length is read from the column descriptor and
passed through unchanged. -/
def write_decimal_encoder (precision : Nat) (decimal : List Nat) (length : Nat) :
    Option (List Nat) :=
  if precision < 39 then twos_complement_i128 decimal length
  else twos_complement_big_int decimal length

/-! ### Time parsing (`parse_time` and the `IntoPhysical` time instances) -/

/-- `chrono::NaiveTime` as produced by `from_hms_nano`: hour, minute,
second and a nanosecond fraction (which may reach into the leap second,
i.e. up to `2 * 10 ^ 9` exclusive). -/
structure NaiveTime where
  hour : Nat
  min : Nat
  sec : Nat
  nano : Nat
deriving DecidableEq

/-- `NaiveTime::from_hms_nano` panics (modelled `none`) outside the valid
component ranges. -/
def from_hms_nano (hour min sec nano : Nat) : Option NaiveTime :=
  if hour < 24 ∧ min < 60 ∧ sec < 60 ∧ nano < 2000000000 then
    some ⟨hour, min, sec, nano⟩
  else none

/-- Faithful model of `parse_time` in `src/parquet_buffer.rs`: hour,
minute, second are read as fixed 2-digit fields at byte offsets 0-1, 3-4,
6-7 (the number of bytes actually consumed is ignored), and a fractional
field starting at offset 9 is padded or truncated to nanoseconds.  Inputs
shorter than 8 bytes make the field slices panic, a fraction above
`u32::MAX` overflows the unchecked accumulation, and out-of-range
components make `from_hms_nano` panic; all are modelled as `none`. -/
def parse_time (input : List Nat) : Option NaiveTime :=
  if input.length < 8 then none
  else
    let hour := (from_radix_10 ((input.drop 0).take 2)).1
    let min := (from_radix_10 ((input.drop 3).take 2)).1
    let sec := (from_radix_10 ((input.drop 6).take 2)).1
    if 9 < input.length then
      let p := from_radix_10 (input.drop 9)
      if p.1 < 2 ^ 32 then
        let nano :=
          if p.2 ≤ 8 then p.1 * 10 ^ (9 - p.2)
          else if p.2 = 9 then p.1
          else p.1 / 10 ^ (p.2 - 9)
        from_hms_nano hour min sec nano
      else none
    else
      from_hms_nano hour min sec 0

/-- Nanoseconds since midnight of a parsed time, the quantity underlying
`signed_duration_since(midnight)` in both `IntoPhysical` time instances. -/
def time_nanos (t : NaiveTime) : Nat :=
  (t.hour * 3600 + t.min * 60 + t.sec) * 1000000000 + t.nano

/-- `IntoPhysical<i32> for &CStr`: parse the time, then
`num_milliseconds` of the duration since midnight.  (The final
`try_into::<i32>()` cannot fail: two-digit fields keep the value far below
`2 ^ 31`.) -/
def time_into_physical_i32 (input : List Nat) : Option Int :=
  (parse_time input).map (fun t => ((time_nanos t : Int)) / 1000000)

/-- `IntoPhysical<i64> for &CStr`: parse the time, then
`num_microseconds` of the duration since midnight. -/
def time_into_physical_i64 (input : List Nat) : Option Int :=
  (parse_time input).map (fun t => ((time_nanos t : Int)) / 1000)

/-! ### The columnar batch buffer (`ParquetBuffer`) -/

/-- The reusable per-column batch buffer.  Every field is one of the typed
value arrays except `def_levels`, the per-row validity markers (0 = null,
1 = present).  The two float arrays carry `Int` stand-ins: no claim ever
inspects a float payload, only array lengths and the resize default (`0`
standing for `0.0`). -/
structure ParquetBuffer where
  values_i32 : List Int
  values_i64 : List Int
  values_f32 : List Int
  values_f64 : List Int
  values_bytes_array : List (List Nat)
  values_bool : List Bool
  def_levels : List Int
deriving DecidableEq

/-- Faithful model of `ParquetBuffer::set_num_rows_fetched`: every array
is `Vec::resize`d to `num_rows`, with default `0` (respectively `0.0`,
empty byte array, `false`) for newly appended slots.  `Vec::resize` keeps
the existing prefix untouched. -/
def set_num_rows_fetched (pb : ParquetBuffer) (num_rows : Nat) : ParquetBuffer :=
  { def_levels := vecResize pb.def_levels num_rows 0
    values_i32 := vecResize pb.values_i32 num_rows 0
    values_i64 := vecResize pb.values_i64 num_rows 0
    values_f32 := vecResize pb.values_f32 num_rows 0
    values_f64 := vecResize pb.values_f64 num_rows 0
    values_bytes_array := vecResize pb.values_bytes_array num_rows []
    values_bool := vecResize pb.values_bool num_rows false }

/-- Faithful model of the loop in `ParquetBuffer::write_optional_any`:
the source iterator is zipped with the definition-level slice, each
definition level is set to 1 or 0 according to presence, and present
values are written densely from the front of the value slice
(`values[values_index]`, incremented only for present items).  An
out-of-bounds value index panics, modelled as `none`; definition levels
beyond the zipped range keep their previous contents. -/
def write_loop {α β : Type} (into_physical : β → α) :
    List (Option β) → List Int → List α → Nat → Option (List α × List Int)
  | [], defs, values, _ => some (values, defs)
  | _ :: _, [], values, _ => some (values, [])
  | some v :: src, _ :: defs, values, vi =>
    if vi < values.length then
      (write_loop into_physical src defs (values.set vi (into_physical v)) (vi + 1)).map
        (fun r => (r.1, 1 :: r.2))
    else none
  | none :: src, _ :: defs, values, vi =>
    (write_loop into_physical src defs values vi).map (fun r => (r.1, 0 :: r.2))

/-- `write_optional_any` acting on one column's value slice and the
definition-level slice (the slices `T::T::mut_buf` returns); the final
`write_batch` call hands exactly these two arrays to the column writer. -/
def write_optional_any {α β : Type} (into_physical : β → α)
    (source : List (Option β)) (values : List α) (def_levels : List Int) :
    Option (List α × List Int) :=
  write_loop into_physical source def_levels values 0

/-! ### The import direction (`src/insert.rs`) -/

inductive LogicalType
  | NONE | UTF8 | MAP | MAP_KEY_VALUE | LIST | ENUM | DECIMAL | DATE
  | TIME_MILLIS | TIME_MICROS | TIMESTAMP_MILLIS | TIMESTAMP_MICROS
  | UINT_8 | UINT_16 | UINT_32 | UINT_64 | INT_8 | INT_16 | INT_32 | INT_64
  | JSON | BSON | INTERVAL
deriving DecidableEq

inductive PhysicalType
  | BOOLEAN | INT32 | INT64 | INT96 | FLOAT | DOUBLE | BYTE_ARRAY
  | FIXED_LEN_BYTE_ARRAY
deriving DecidableEq

/-- The `odbc_api::buffers::BufferKind` variants this program constructs. -/
inductive BufferKind
  | Text (max_str_len : Nat)
  | I64
deriving DecidableEq

structure BufferDescription where
  kind : BufferKind
  nullable : Bool
deriving DecidableEq

/-- The parquet column descriptor fields `parquet_type_to_odbc_buffer_desc`
reads: primitiveness, optionality, logical and physical type, and the
declared type length (an `i32`). -/
structure ColumnDescriptor where
  is_primitive : Bool
  is_optional : Bool
  logical_type : LogicalType
  physical_type : PhysicalType
  type_length : Int
deriving DecidableEq

/-- Faithful model of `parquet_type_to_odbc_buffer_desc`: non-primitive
columns `bail!` (an `Err`, modelled `some (Except.error _)`); the three
implemented combinations return a buffer description; `(UTF8, _)` hits
`panic!` and every remaining declared combination hits `todo!()` - both
are runtime panics, modelled as `none`.  A negative declared type length
makes `try_into().unwrap()` panic, also `none`. -/
def parquet_type_to_odbc_buffer_desc (col : ColumnDescriptor) :
    Option (Except String BufferDescription) :=
  if !col.is_primitive then
    some (Except.error "Only primitive parquet types are supported.")
  else
    match col.logical_type, col.physical_type with
    | .UTF8, .BYTE_ARRAY =>
      some (Except.ok ⟨.Text 128, col.is_optional⟩)
    | .UTF8, .FIXED_LEN_BYTE_ARRAY =>
      if col.type_length < 0 then none
      else some (Except.ok ⟨.Text col.type_length.toNat, col.is_optional⟩)
    | .INT_64, .INT64 =>
      some (Except.ok ⟨.I64, col.is_optional⟩)
    | .UTF8, _ => none
    | _, _ => none

/-- Faithful model of `insert_statement_text`: the column names joined by
a comma-space, one question mark per column, interpolated into the fixed
statement template. -/
def insert_statement_text (table : String) (column_names : List String) : String :=
  let columns := String.intercalate ", " column_names
  let values := String.intercalate ", " (column_names.map (fun _ => "?"))
  "INSERT INTO " ++ table ++ " (" ++ columns ++ ") VALUES (" ++ values ++ ");"

/-- The `parquet::column::reader::ColumnReader` variants matched in the
per-column loop of `insert`. -/
inductive ColumnReader
  | BoolColumnReader | Int32ColumnReader | Int64ColumnReader
  | Int96ColumnReader | FloatColumnReader | DoubleColumnReader
  | ByteArrayColumnReader | FixedLenByteArrayColumnReader
deriving DecidableEq

/-- The ODBC columnar row set handed to `statement.execute`: the declared
row count and, per column, the optional (nullable) cell payloads.  Cell
payloads are abstracted to `Int`; only whether the loop writes them at all
is at issue. -/
structure ColumnarRowSet where
  num_rows : Nat
  column_data : List (List (Option Int))
deriving DecidableEq

def set_num_rows (buf : ColumnarRowSet) (n : Nat) : ColumnarRowSet :=
  { buf with num_rows := n }

/-- Faithful model of the per-column match inside the row-group loop of
`insert` in `src/insert.rs`: every `ColumnReader` arm has an empty body
(the only read call, for `Int64ColumnReader`, is commented out), so any
arm leaves the ODBC buffer exactly as it was. -/
def read_column_into_buffer (r : ColumnReader) (buf : ColumnarRowSet) : ColumnarRowSet :=
  match r with
  | .BoolColumnReader => buf
  | .Int32ColumnReader => buf
  | .Int64ColumnReader => buf
  | .Int96ColumnReader => buf
  | .FloatColumnReader => buf
  | .DoubleColumnReader => buf
  | .ByteArrayColumnReader => buf
  | .FixedLenByteArrayColumnReader => buf

/-- One iteration of the row-group loop of `insert`: set the row count
from the row-group metadata, run the per-column loop, and return the
buffer that `statement.execute(&odbc_buffer)` is then called with. -/
def insert_row_group (readers : List ColumnReader) (buf : ColumnarRowSet)
    (num_rows : Nat) : ColumnarRowSet :=
  readers.foldl (fun b r => read_column_into_buffer r b) (set_num_rows buf num_rows)

/-! ### Arithmetic facts about the byte strings -/

theorem toNat_emod_pow_mod (n : Int) (a b : Nat) (hba : b ≤ a) :
    (n % ((2 : Int) ^ a)).toNat % 2 ^ b = (n % ((2 : Int) ^ b)).toNat := by
  have h1 : (0 : Int) ≤ n % ((2 : Int) ^ a) :=
    Int.emod_nonneg n (by positivity)
  have h2 : n % ((2 : Int) ^ a) % ((2 : Int) ^ b) = n % ((2 : Int) ^ b) :=
    Int.emod_emod_of_dvd n (pow_dvd_pow 2 hba)
  have h3 : (((n % ((2 : Int) ^ a)).toNat % 2 ^ b : Nat) : Int)
      = ((n % ((2 : Int) ^ b)).toNat : Int) := by
    push_cast [Int.toNat_of_nonneg h1]
    rw [h2]
    exact (Int.toNat_of_nonneg (Int.emod_nonneg n (by positivity))).symm
  exact_mod_cast h3

theorem leBytes_mod (k m : Nat) : leBytes k (m % 2 ^ (8 * k)) = leBytes k m := by
  induction k generalizing m with
  | zero => rfl
  | succ k ih =>
    have hpow : (2 : Nat) ^ (8 * (k + 1)) = 256 * 2 ^ (8 * k) := by
      rw [show 8 * (k + 1) = 8 + 8 * k by ring, pow_add]
      norm_num
    have hdvd : (256 : Nat) ∣ 2 ^ (8 * (k + 1)) := ⟨2 ^ (8 * k), hpow⟩
    simp only [leBytes]
    rw [Nat.mod_mod_of_dvd m hdvd, hpow, Nat.mod_mul_right_div_self, ih]

theorem leBytes_take (j k m : Nat) (h : j ≤ k) :
    (leBytes k m).take j = leBytes j m := by
  induction j generalizing k m with
  | zero => simp [leBytes]
  | succ j ih =>
    cases k with
    | zero => omega
    | succ k =>
      show (leBytes (k + 1) m).take (j + 1) = leBytes (j + 1) m
      simp only [leBytes, List.take_succ_cons]
      rw [ih k (m / 256) (by omega)]

theorem leBytes_snoc (k m : Nat) :
    leBytes (k + 1) m = leBytes k m ++ [m / 256 ^ k % 256] := by
  induction k generalizing m with
  | zero => simp [leBytes]
  | succ k ih =>
    have h1 : leBytes (k + 1 + 1) m = m % 256 :: leBytes (k + 1) (m / 256) := rfl
    have h2 : leBytes (k + 1) m = m % 256 :: leBytes k (m / 256) := rfl
    rw [h1, h2, ih (m / 256), List.cons_append, Nat.div_div_eq_div_mul,
      show (256 : Nat) * 256 ^ k = 256 ^ (k + 1) by ring]

theorem intBytes_drop (L k : Nat) (n : Int) (h : L ≤ k) :
    (intBytes k n).drop (k - L) = intBytes L n := by
  unfold intBytes
  rw [List.drop_reverse, leBytes_length, show k - (k - L) = L by omega,
    leBytes_take L k _ h]
  rw [← leBytes_mod L ((n % (2 ^ (8 * k))).toNat),
    toNat_emod_pow_mod n (8 * k) (8 * L) (by omega)]

theorem bytesNeededPos_pos (m : Nat) : 1 ≤ bytesNeededPos m := by
  rw [bytesNeededPos]
  split <;> omega

theorem bytesNeededPos_bound (m : Nat) : m < 2 ^ (8 * bytesNeededPos m - 1) := by
  induction m using Nat.strong_induction_on with
  | _ m ih =>
    rw [bytesNeededPos]
    split
    · norm_num
      omega
    · have hdiv : m / 256 < m := Nat.div_lt_self (by omega) (by omega)
      have hb := ih (m / 256) hdiv
      have hb1 := bytesNeededPos_pos (m / 256)
      have hexp : 8 * (1 + bytesNeededPos (m / 256)) - 1
          = (8 * bytesNeededPos (m / 256) - 1) + 8 := by omega
      rw [hexp, pow_add]
      have hm : m < (m / 256 + 1) * 256 := by omega
      calc m < (m / 256 + 1) * 256 := hm
        _ ≤ 2 ^ (8 * bytesNeededPos (m / 256) - 1) * 256 := by
            exact Nat.mul_le_mul_right 256 (by omega)
        _ = 2 ^ (8 * bytesNeededPos (m / 256) - 1) * 2 ^ 8 := by norm_num

theorem minSignedLen_pos (n : Int) : 1 ≤ minSignedLen n := by
  unfold minSignedLen
  split <;> exact bytesNeededPos_pos _

theorem minSignedLen_bounds (n : Int) :
    -((2 ^ (8 * minSignedLen n - 1) : Nat) : Int) ≤ n
      ∧ n < ((2 ^ (8 * minSignedLen n - 1) : Nat) : Int) := by
  unfold minSignedLen
  split
  · have hb := bytesNeededPos_bound (n.natAbs - 1)
    omega
  · have hb := bytesNeededPos_bound n.toNat
    omega

theorem leBytes_top_byte_fill (n : Int) (k L : Nat) (hk1 : 1 ≤ k) (hkL : k ≤ L)
    (hlo : -(((2 : Nat) ^ (8 * k - 1) : Nat) : Int) ≤ n)
    (hhi : n < (((2 : Nat) ^ (8 * k - 1) : Nat) : Int)) :
    (n % ((2 : Int) ^ (8 * (L + 1)))).toNat / 2 ^ (8 * L) % 256
      = if n < 0 then 255 else 0 := by
  have hmono : (2 : Nat) ^ (8 * k - 1) ≤ 2 ^ (8 * L) :=
    Nat.pow_le_pow_right (by omega) (by omega)
  have hPpos : (0 : Nat) < 2 ^ (8 * L) := by positivity
  have hB : ((2 : Int) ^ (8 * (L + 1))) = ((2 ^ (8 * L) * 256 : Nat) : Int) := by
    push_cast
    rw [show 8 * (L + 1) = 8 * L + 8 by ring, pow_add]
    norm_num
  have hPle : ((2 : Nat) ^ (8 * k - 1) : Int) ≤ ((2 ^ (8 * L) * 256 : Nat) : Int) := by
    have : (2 : Nat) ^ (8 * k - 1) ≤ 2 ^ (8 * L) * 256 :=
      le_trans hmono (Nat.le_mul_of_pos_right _ (by omega))
    exact_mod_cast this
  by_cases hneg : n < 0
  · rw [if_pos hneg]
    have hval : n % ((2 : Int) ^ (8 * (L + 1))) = n + (2 : Int) ^ (8 * (L + 1)) := by
      have h1 : (n + (2 : Int) ^ (8 * (L + 1)) * 1) % ((2 : Int) ^ (8 * (L + 1)))
          = n % ((2 : Int) ^ (8 * (L + 1))) :=
        Int.add_mul_emod_self_left n ((2 : Int) ^ (8 * (L + 1))) 1
      rw [mul_one] at h1
      rw [← h1]
      apply Int.emod_eq_of_lt
      · rw [hB]
        omega
      · rw [hB]
        omega
    rw [hval, hB]
    have hM : ((n + ((2 ^ (8 * L) * 256 : Nat) : Int)).toNat : Int)
        = n + ((2 ^ (8 * L) * 256 : Nat) : Int) := by
      apply Int.toNat_of_nonneg
      omega
    have hM1 : 2 ^ (8 * L) * 255 ≤ (n + ((2 ^ (8 * L) * 256 : Nat) : Int)).toNat := by
      have hc : ((2 ^ (8 * L) * 255 : Nat) : Int) ≤ n + ((2 ^ (8 * L) * 256 : Nat) : Int) := by
        have h255 : ((2 ^ (8 * L) * 255 : Nat) : Int) + ((2 : Nat) ^ (8 * k - 1) : Int)
            ≤ ((2 ^ (8 * L) * 256 : Nat) : Int) := by
          have hn : (2 : Nat) ^ (8 * L) * 255 + 2 ^ (8 * k - 1) ≤ 2 ^ (8 * L) * 256 := by
            nlinarith [hmono]
          exact_mod_cast hn
        omega
      omega
    have hM2 : (n + ((2 ^ (8 * L) * 256 : Nat) : Int)).toNat < 2 ^ (8 * L) * 256 := by
      omega
    have hq255 : 255 ≤ (n + ((2 ^ (8 * L) * 256 : Nat) : Int)).toNat / 2 ^ (8 * L) :=
      (Nat.le_div_iff_mul_le hPpos).mpr (by omega)
    have hqlt : (n + ((2 ^ (8 * L) * 256 : Nat) : Int)).toNat / 2 ^ (8 * L) < 256 :=
      (Nat.div_lt_iff_lt_mul hPpos).mpr (by omega)
    omega
  · rw [if_neg hneg]
    have h0 : (0 : Int) ≤ n := by omega
    have hval : n % ((2 : Int) ^ (8 * (L + 1))) = n := by
      apply Int.emod_eq_of_lt h0
      rw [hB]
      omega
    rw [hval]
    have hlt : n.toNat < 2 ^ (8 * L) := by omega
    rw [Nat.div_eq_of_lt hlt]

theorem leBytes_sign_extend (n : Int) (k : Nat) (hk1 : 1 ≤ k)
    (hlo : -(((2 : Nat) ^ (8 * k - 1) : Nat) : Int) ≤ n)
    (hhi : n < (((2 : Nat) ^ (8 * k - 1) : Nat) : Int)) :
    ∀ L, k ≤ L →
      leBytes L (n % ((2 : Int) ^ (8 * L))).toNat
        = leBytes k (n % ((2 : Int) ^ (8 * k))).toNat
            ++ List.replicate (L - k) (if n < 0 then 255 else 0) := by
  intro L hL
  induction L, hL using Nat.le_induction with
  | base => simp
  | succ L hkL ih =>
    have h256 : (256 : Nat) ^ L = 2 ^ (8 * L) := by
      rw [show (256 : Nat) = 2 ^ 8 by norm_num, ← pow_mul]
    rw [leBytes_snoc, h256,
      ← leBytes_mod L ((n % ((2 : Int) ^ (8 * (L + 1)))).toNat),
      toNat_emod_pow_mod n (8 * (L + 1)) (8 * L) (by omega),
      ih, leBytes_top_byte_fill n k L hk1 hkL hlo hhi, List.append_assoc,
      show L + 1 - k = L - k + 1 by omega, List.replicate_succ']

theorem intBytes_sign_extend (n : Int) (k L : Nat) (hk1 : 1 ≤ k) (hkL : k ≤ L)
    (hlo : -(((2 : Nat) ^ (8 * k - 1) : Nat) : Int) ≤ n)
    (hhi : n < (((2 : Nat) ^ (8 * k - 1) : Nat) : Int)) :
    intBytes L n
      = List.replicate (L - k) (if n < 0 then 255 else 0) ++ intBytes k n := by
  unfold intBytes
  rw [leBytes_sign_extend n k hk1 hlo hhi L hkL, List.reverse_append,
    List.reverse_replicate]

theorem resize_rotate_layout {α : Type} (out : List α) (L : Nat) (fill : α)
    (h : out.length ≤ L) :
    rotateRightList (vecResize out L fill) (L - out.length)
      = List.replicate (L - out.length) fill ++ out := by
  unfold vecResize rotateRightList
  rcases eq_or_lt_of_le h with heq | hlt
  · rw [if_pos (le_of_eq heq.symm), List.take_of_length_le (le_of_eq heq),
      show L - out.length = 0 by omega]
    simp
  · rw [if_neg (by omega)]
    have hlen : (out ++ List.replicate (L - out.length) fill).length = L := by
      simp
      omega
    rw [hlen, show L - (L - out.length) = out.length by omega,
      List.drop_left, List.take_left]

/-! ### Claims about the decimal encoders -/

/-- C1: for every decimal text value and every target byte length on which
both paths are defined, the fast-path encoder (native 128-bit signed
arithmetic, chosen for precision below 39) and the arbitrary-precision
encoder (chosen for precision at least 39) produce byte-for-byte identical
fixed-length two's-complement big-endian output. -/
theorem decimal_fast_and_big_paths_agree (decimal : List Nat) (length : Nat)
    (r1 r2 : List Nat)
    (h1 : twos_complement_i128 decimal length = some r1)
    (h2 : twos_complement_big_int decimal length = some r2) :
    r1 = r2 := by
  simp only [twos_complement_i128] at h1
  simp only [twos_complement_big_int] at h2
  split at h1
  case isFalse => simp at h1
  case isTrue hc1 =>
    split at h2
    case isFalse => simp at h2
    case isTrue hc2 =>
      obtain ⟨hL16, hlo, hhi⟩ := hc1
      have hkL : minSignedLen (parsed_decimal decimal) ≤ length := by
        simpa [toSignedBytesBE] using hc2
      rw [resize_rotate_layout _ _ _ hc2] at h2
      have hb := minSignedLen_bounds (parsed_decimal decimal)
      have hext := intBytes_sign_extend (parsed_decimal decimal)
        (minSignedLen (parsed_decimal decimal)) length
        (minSignedLen_pos _) hkL hb.1 hb.2
      have hdrop := intBytes_drop length 16 (parsed_decimal decimal) hL16
      rw [← Option.some.inj h1, ← Option.some.inj h2, hdrop, hext]
      simp [toSignedBytesBE]

theorem decimal_fast_and_big_paths_agree_witness :
    twos_complement_i128 [49, 50, 51, 46, 52, 53] 3 = some [0, 48, 57]
    ∧ twos_complement_big_int [49, 50, 51, 46, 52, 53] 3 = some [0, 48, 57]
    ∧ ([0, 48, 57] : List Nat) = [0, 48, 57] := by
  have hp : parsed_decimal [49, 50, 51, 46, 52, 53] = 12345 := by
    norm_num [parsed_decimal, from_radix_10_signed, from_radix_10, from_radix_10_acc]
  have h1 : twos_complement_i128 [49, 50, 51, 46, 52, 53] 3 = some [0, 48, 57] := by
    simp only [twos_complement_i128, hp]
    rw [if_pos (by norm_num), intBytes,
      show ((12345 : Int) % (2 ^ (8 * 16))) = 12345 from
        Int.emod_eq_of_lt (by norm_num) (by norm_num),
      show (12345 : Int).toNat = 12345 from rfl]
    simp [leBytes]
  have h2 : twos_complement_big_int [49, 50, 51, 46, 52, 53] 3 = some [0, 48, 57] := by
    have hms : minSignedLen 12345 = 2 := by
      rw [minSignedLen, if_neg (by norm_num),
        show (12345 : Int).toNat = 12345 from rfl]
      simp [bytesNeededPos]
    have hsb : toSignedBytesBE 12345 = [48, 57] := by
      rw [toSignedBytesBE, hms, intBytes,
        show ((12345 : Int) % (2 ^ (8 * 2))) = 12345 from
          Int.emod_eq_of_lt (by norm_num) (by norm_num),
        show (12345 : Int).toNat = 12345 from rfl]
      simp [leBytes]
    simp only [twos_complement_big_int, hp, hsb]
    simp [vecResize, rotateRightList]
  exact ⟨h1, h2, decimal_fast_and_big_paths_agree [49, 50, 51, 46, 52, 53] 3 _ _ h1 h2⟩

/-- C5: on the arbitrary-precision path (whenever it is defined), the
output is the minimal signed big-endian representation padded to exactly
`length` bytes by leading fill bytes, `0` for non-negative and `255` for
negative values, and the padded result is the correct arithmetic
sign-extension: the `length`-byte two's-complement big-endian encoding of
the parsed value. -/
theorem big_int_pads_with_sign_fill (decimal : List Nat) (length : Nat)
    (hdef : (toSignedBytesBE (parsed_decimal decimal)).length ≤ length) :
    twos_complement_big_int decimal length
      = some (List.replicate (length - (toSignedBytesBE (parsed_decimal decimal)).length)
            (if parsed_decimal decimal < 0 then 255 else 0)
          ++ toSignedBytesBE (parsed_decimal decimal))
    ∧ List.replicate (length - (toSignedBytesBE (parsed_decimal decimal)).length)
            (if parsed_decimal decimal < 0 then 255 else 0)
          ++ toSignedBytesBE (parsed_decimal decimal)
        = intBytes length (parsed_decimal decimal)
    ∧ (List.replicate (length - (toSignedBytesBE (parsed_decimal decimal)).length)
            (if parsed_decimal decimal < 0 then 255 else 0)
          ++ toSignedBytesBE (parsed_decimal decimal)).length = length := by
  refine ⟨?_, ?_, ?_⟩
  · simp only [twos_complement_big_int]
    rw [if_pos hdef, resize_rotate_layout _ _ _ hdef]
  · have hkL : minSignedLen (parsed_decimal decimal) ≤ length := by
      simpa [toSignedBytesBE] using hdef
    have hb := minSignedLen_bounds (parsed_decimal decimal)
    have hext := intBytes_sign_extend (parsed_decimal decimal)
      (minSignedLen (parsed_decimal decimal)) length
      (minSignedLen_pos _) hkL hb.1 hb.2
    rw [hext]
    simp [toSignedBytesBE]
  · have hkL : minSignedLen (parsed_decimal decimal) ≤ length := by
      simpa [toSignedBytesBE] using hdef
    simp [toSignedBytesBE]
    omega

theorem big_int_pads_with_sign_fill_witness :
    (toSignedBytesBE (parsed_decimal [45, 49, 50, 46, 53])).length ≤ 3
    ∧ twos_complement_big_int [45, 49, 50, 46, 53] 3 = some [255, 255, 131] := by
  have hp : parsed_decimal [45, 49, 50, 46, 53] = -125 := by
    norm_num [parsed_decimal, from_radix_10_signed, from_radix_10, from_radix_10_acc]
  have hms : minSignedLen (-125) = 1 := by
    rw [minSignedLen, if_pos (by norm_num)]
    simp [bytesNeededPos]
  have hsb : toSignedBytesBE (-125) = [131] := by
    rw [toSignedBytesBE, hms, intBytes,
      show (((-125 : Int)) % (2 ^ (8 * 1))) = 131 from by decide,
      show (131 : Int).toNat = 131 from rfl]
    simp [leBytes]
  have hlen : (toSignedBytesBE (parsed_decimal [45, 49, 50, 46, 53])).length ≤ 3 := by
    rw [hp, hsb]
    norm_num
  refine ⟨hlen, ?_⟩
  rw [(big_int_pads_with_sign_fill [45, 49, 50, 46, 53] 3 hlen).1, hp, hsb]
  norm_num [List.replicate]

/-- C9: under the precondition that the target byte length is at most 16
(and the parsed value in `i128` range), the fast-path encoder is total and
its result has exactly `length` bytes; the precondition is nowhere
checked - `write_decimal` selects the fast path solely on the precision,
and a target length above 16 makes the slice index `16 - length`
underflow (a panic, modelled `none`). -/
theorem fast_path_total_iff_length_le_16 (decimal : List Nat)
    (length precision : Nat) (hp : precision < 39)
    (hrange : -(2 ^ 127) ≤ parsed_decimal decimal ∧ parsed_decimal decimal < 2 ^ 127) :
    (length ≤ 16 →
      ∃ r, write_decimal_encoder precision decimal length = some r
        ∧ r.length = length)
    ∧ (16 < length → write_decimal_encoder precision decimal length = none) := by
  constructor
  · intro hL
    refine ⟨(intBytes 16 (parsed_decimal decimal)).drop (16 - length), ?_, ?_⟩
    · simp only [write_decimal_encoder, if_pos hp, twos_complement_i128]
      rw [if_pos ⟨hL, hrange.1, hrange.2⟩]
    · simp only [List.length_drop, intBytes_length]
      omega
  · intro hL
    simp only [write_decimal_encoder, if_pos hp, twos_complement_i128]
    rw [if_neg (fun hcon => absurd hcon.1 (by omega))]

theorem fast_path_total_iff_length_le_16_witness :
    (38 < 39)
    ∧ (-(2 ^ 127) ≤ parsed_decimal [49] ∧ parsed_decimal [49] < 2 ^ 127)
    ∧ write_decimal_encoder 38 [49] 17 = none := by
  have hp : parsed_decimal [49] = 1 := by
    norm_num [parsed_decimal, from_radix_10_signed, from_radix_10, from_radix_10_acc]
  have hr : -(2 ^ 127) ≤ parsed_decimal [49] ∧ parsed_decimal [49] < 2 ^ 127 := by
    rw [hp]
    constructor <;> norm_num
  exact ⟨by norm_num, hr,
    (fast_path_total_iff_length_le_16 [49] 17 38 (by norm_num) hr).2 (by norm_num)⟩

/-! ### Claims about the import direction -/

theorem map_to_question_mark (l : List String) :
    l.map (fun _ => "?") = List.replicate l.length "?" := by
  induction l with
  | nil => rfl
  | cons a l ih => simp [ih, List.replicate_succ]

/-- C10: for every table name and list of column names, the generated
statement is exactly the INSERT INTO template with the column names joined
by comma-space in order and one question-mark placeholder per column. -/
theorem insert_statement_text_shape (table : String) (column_names : List String) :
    insert_statement_text table column_names
      = "INSERT INTO " ++ table ++ " (" ++ String.intercalate ", " column_names
        ++ ") VALUES ("
        ++ String.intercalate ", " (List.replicate column_names.length "?")
        ++ ");" := by
  unfold insert_statement_text
  rw [map_to_question_mark]

theorem read_column_into_buffer_id (r : ColumnReader) (buf : ColumnarRowSet) :
    read_column_into_buffer r buf = buf := by
  cases r <;> rfl

/-- C2 (code bug): the engine never streams any column values into the
batch - every arm of the per-column match is empty, so the buffer handed
to `statement.execute` is exactly the buffer `set_num_rows` produced, with
its column data untouched for every supported column kind, contradicting
the specified streaming step. -/
theorem insert_executes_unpopulated_buffer (readers : List ColumnReader)
    (buf : ColumnarRowSet) (num_rows : Nat) :
    insert_row_group readers buf num_rows = set_num_rows buf num_rows
    ∧ (insert_row_group readers buf num_rows).column_data = buf.column_data := by
  have hfold : insert_row_group readers buf num_rows = set_num_rows buf num_rows := by
    unfold insert_row_group
    induction readers with
    | nil => rfl
    | cons r rs ih =>
      rw [List.foldl_cons, read_column_into_buffer_id]
      exact ih
  exact ⟨hfold, by rw [hfold]; rfl⟩

/-- C3 counterexample: a primitive decimal column does not get a
`NotYetSupported` configuration error as a `Result` value; the resolver
hits `todo!()`, a runtime panic (modelled `none`). -/
theorem resolver_decimal_panics :
    parquet_type_to_odbc_buffer_desc ⟨true, true, .DECIMAL, .INT32, 0⟩ = none := rfl

/-- C3 (amended): only the non-primitive check produces a configuration
error as a `Result` value; every declared combination outside the three
implemented ones (UTF8 with BYTE_ARRAY or FIXED_LEN_BYTE_ARRAY, INT_64
with INT64) panics at resolution time via `todo!()` or `panic!` instead of
returning a `NotYetSupported` error. -/
theorem resolver_unimplemented_combinations_panic :
    (∀ col : ColumnDescriptor, col.is_primitive = true →
      ¬(col.logical_type = .UTF8 ∧ (col.physical_type = .BYTE_ARRAY
          ∨ col.physical_type = .FIXED_LEN_BYTE_ARRAY))
      → ¬(col.logical_type = .INT_64 ∧ col.physical_type = .INT64)
      → parquet_type_to_odbc_buffer_desc col = none)
    ∧ parquet_type_to_odbc_buffer_desc ⟨false, true, .UTF8, .BYTE_ARRAY, 0⟩
        = some (Except.error "Only primitive parquet types are supported.") := by
  constructor
  · rintro ⟨prim, opt, lt, pt, len⟩ hprim hutf8 hint64
    cases lt <;> cases pt <;> simp_all [parquet_type_to_odbc_buffer_desc]
  · rfl

theorem resolver_unimplemented_combinations_panic_witness :
    ((⟨true, true, .DATE, .INT32, 0⟩ : ColumnDescriptor).is_primitive = true)
    ∧ parquet_type_to_odbc_buffer_desc ⟨true, true, .DATE, .INT32, 0⟩ = none :=
  ⟨rfl, resolver_unimplemented_combinations_panic.1 ⟨true, true, .DATE, .INT32, 0⟩
    rfl (by simp) (by simp)⟩

/-! ### Claims about the batch buffer resize -/

theorem vecResize_length {α : Type} (l : List α) (n : Nat) (d : α) :
    (vecResize l n d).length = n := by
  unfold vecResize
  split
  · simp only [List.length_take]
    omega
  · simp only [List.length_append, List.length_replicate]
    omega

theorem vecResize_getElem_new {α : Type} (l : List α) (n : Nat) (d : α)
    (i : Nat) (hi1 : l.length ≤ i) (hi2 : i < n) :
    (vecResize l n d)[i]? = some d := by
  unfold vecResize
  rw [if_neg (by omega), List.getElem?_append_right hi1,
    List.getElem?_replicate, if_pos (by omega)]

theorem vecResize_getElem_old {α : Type} (l : List α) (n : Nat) (d : α)
    (i : Nat) (hi1 : i < l.length) (hi2 : i < n) :
    (vecResize l n d)[i]? = l[i]? := by
  unfold vecResize
  split
  · rw [List.getElem?_take, if_pos hi2]
  · rw [List.getElem?_append, if_pos hi1]

/-- C8 counterexample: resizing a buffer whose validity array already
holds a present marker (1) to the same row count keeps the stale marker:
after the resize the marker array is still `[1]`, not all-absent. -/
theorem resize_keeps_stale_marker :
    (set_num_rows_fetched ⟨[], [], [], [], [], [], [1]⟩ 1).def_levels = [1]
    ∧ (1 : Int) ≠ 0 := ⟨rfl, by decide⟩

/-- C8 (amended): the resize leaves every per-column value array and the
validity-marker array with length exactly `rows`; validity markers in
newly appended slots are the absent value 0, while slots retained from
the previous batch keep their prior values - they are not reset. -/
theorem set_num_rows_fetched_lengths_and_markers (pb : ParquetBuffer) (rows : Nat) :
    ((set_num_rows_fetched pb rows).def_levels.length = rows
      ∧ (set_num_rows_fetched pb rows).values_i32.length = rows
      ∧ (set_num_rows_fetched pb rows).values_i64.length = rows
      ∧ (set_num_rows_fetched pb rows).values_f32.length = rows
      ∧ (set_num_rows_fetched pb rows).values_f64.length = rows
      ∧ (set_num_rows_fetched pb rows).values_bytes_array.length = rows
      ∧ (set_num_rows_fetched pb rows).values_bool.length = rows)
    ∧ (∀ i, pb.def_levels.length ≤ i → i < rows →
        (set_num_rows_fetched pb rows).def_levels[i]? = some 0)
    ∧ (∀ i, i < pb.def_levels.length → i < rows →
        (set_num_rows_fetched pb rows).def_levels[i]? = pb.def_levels[i]?) := by
  refine ⟨⟨?_, ?_, ?_, ?_, ?_, ?_, ?_⟩, ?_, ?_⟩
  · exact vecResize_length _ _ _
  · exact vecResize_length _ _ _
  · exact vecResize_length _ _ _
  · exact vecResize_length _ _ _
  · exact vecResize_length _ _ _
  · exact vecResize_length _ _ _
  · exact vecResize_length _ _ _
  · intro i hi1 hi2
    exact vecResize_getElem_new _ _ _ i hi1 hi2
  · intro i hi1 hi2
    exact vecResize_getElem_old _ _ _ i hi1 hi2

theorem set_num_rows_fetched_lengths_and_markers_witness :
    (set_num_rows_fetched ⟨[], [], [], [], [], [], [1]⟩ 2).def_levels.length = 2
    ∧ (set_num_rows_fetched ⟨[], [], [], [], [], [], [1]⟩ 2).def_levels[1]? = some 0
    ∧ (set_num_rows_fetched ⟨[], [], [], [], [], [], [1]⟩ 2).def_levels[0]?
        = ([1] : List Int)[0]? := by
  obtain ⟨⟨h1, -, -, -, -, -, -⟩, happ, hret⟩ :=
    set_num_rows_fetched_lengths_and_markers ⟨[], [], [], [], [], [], [1]⟩ 2
  exact ⟨h1, happ 1 (by decide) (by decide), hret 0 (by decide) (by decide)⟩

/-! ### Claims about the write loop -/

theorem filterMap_id_cons_isNone {β : Type} (src : List (Option β)) :
    ((none :: src).filterMap id) = src.filterMap id := rfl

theorem filterMap_id_cons_isSome {β : Type} (v : β) (src : List (Option β)) :
    ((some v :: src).filterMap id) = v :: src.filterMap id := rfl

theorem write_loop_spec {α β : Type} (f : β → α) (source : List (Option β)) :
    ∀ (defs : List Int) (values : List α) (vi : Nat),
      source.length = defs.length →
      vi + (source.filterMap id).length ≤ values.length →
      ∃ vals, write_loop f source defs values vi
          = some (vals, source.map (fun it => if it.isSome then (1 : Int) else 0))
        ∧ vals.length = values.length
        ∧ (∀ j, j < vi → vals[j]? = values[j]?)
        ∧ (∀ j, j < (source.filterMap id).length →
            vals[vi + j]? = ((source.filterMap id).map f)[j]?) := by
  induction source with
  | nil =>
    intro defs values vi hlen hcap
    cases defs with
    | nil =>
      exact ⟨values, rfl, rfl, fun j hj => rfl, fun j hj => by simp at hj⟩
    | cons d ds => simp at hlen
  | cons item src ih =>
    intro defs values vi hlen hcap
    cases defs with
    | nil => simp at hlen
    | cons d ds =>
      cases item with
      | none =>
        obtain ⟨vals, hw, hvl, hpre, hpack⟩ :=
          ih ds values vi (by simpa using hlen) (by simpa using hcap)
        refine ⟨vals, ?_, hvl, hpre, ?_⟩
        · show (write_loop f src ds values vi).map (fun r => (r.1, 0 :: r.2)) = _
          rw [hw]
          rfl
        · intro j hj
          simp only [filterMap_id_cons_isNone] at hj ⊢
          exact hpack j hj
      | some v =>
        have hcap1 : (vi + 1) + (src.filterMap id).length ≤ values.length := by
          simp only [filterMap_id_cons_isSome, List.length_cons] at hcap
          omega
        have hvi : vi < values.length := by omega
        obtain ⟨vals, hw, hvl, hpre, hpack⟩ :=
          ih ds (values.set vi (f v)) (vi + 1) (by simpa using hlen)
            (by simpa using hcap1)
        refine ⟨vals, ?_, by simpa using hvl, ?_, ?_⟩
        · show (if vi < values.length then
              (write_loop f src ds (values.set vi (f v)) (vi + 1)).map
                (fun r => (r.1, 1 :: r.2))
            else none) = _
          rw [if_pos hvi, hw]
          rfl
        · intro j hj
          rw [hpre j (by omega), List.getElem?_set_ne (by omega)]
        · intro j hj
          cases j with
          | zero =>
            rw [Nat.add_zero, hpre vi (by omega), List.getElem?_set_self hvi]
            simp [filterMap_id_cons_isSome]
          | succ j' =>
            rw [show vi + (j' + 1) = (vi + 1) + j' by ring]
            simp only [filterMap_id_cons_isSome, List.length_cons] at hj
            rw [hpack j' (by omega)]
            simp [filterMap_id_cons_isSome]

theorem map_presence_count {β : Type} (source : List (Option β)) :
    (source.map (fun it => if it.isSome then (1 : Int) else 0)).count 1
      = (source.filterMap id).length := by
  induction source with
  | nil => rfl
  | cons item src ih =>
    cases item <;> simp [ih, List.count_cons]

/-- C4: writing any iterator of optional values into a column buffer of
matching size leaves the definition levels set to 1 exactly at the rows
whose source item was present, the count of 1-markers equal to the number
of value slots populated, and the populated values densely packed at the
front of the value array in source order, null rows contributing no
slot. -/
theorem write_optional_any_packs_values {α β : Type} (f : β → α)
    (source : List (Option β)) (values : List α) (def_levels : List Int)
    (hsd : source.length = def_levels.length)
    (hsv : source.length = values.length) :
    (write_optional_any f source values def_levels).isSome = true
    ∧ ∀ (vals : List α) (defs : List Int),
        write_optional_any f source values def_levels = some (vals, defs) →
          defs.count 1 = (source.filterMap id).length
          ∧ vals.take (source.filterMap id).length = (source.filterMap id).map f
          ∧ ∀ i : Nat, defs[i]?
              = (source[i]?).map (fun it : Option β => if it.isSome then (1 : Int) else 0) := by
  have hcap : 0 + (source.filterMap id).length ≤ values.length := by
    have := List.length_filterMap_le id source
    omega
  obtain ⟨vals0, hw, hvl, _, hpack⟩ := write_loop_spec f source def_levels values 0 hsd hcap
  constructor
  · unfold write_optional_any
    rw [hw]
    rfl
  · intro vals defs heq
    unfold write_optional_any at heq
    rw [hw] at heq
    have hpair := Option.some.inj heq
    injection hpair with hv hd
    subst hv
    subst hd
    refine ⟨map_presence_count source, ?_, ?_⟩
    · apply List.ext_getElem?
      intro j
      rw [List.getElem?_take]
      split
      case isTrue hj =>
        have := hpack j hj
        rw [Nat.zero_add] at this
        exact this
      case isFalse hj =>
        symm
        apply List.getElem?_eq_none
        simp only [List.length_map]
        omega
    · intro i
      rw [List.getElem?_map]

theorem write_optional_any_packs_values_witness :
    ([some 1, none, some 3] : List (Option Nat)).length = ([9, 9, 9] : List Int).length
    ∧ ([some 1, none, some 3] : List (Option Nat)).length = ([0, 0, 0] : List Nat).length
    ∧ write_optional_any (fun x : Nat => x * 2) [some 1, none, some 3] [0, 0, 0] [9, 9, 9]
        = some ([2, 6, 0], [1, 0, 1])
    ∧ ([1, 0, 1] : List Int).count 1
        = (([some 1, none, some 3] : List (Option Nat)).filterMap id).length := by
  have heval : write_optional_any (fun x : Nat => x * 2) [some 1, none, some 3]
      [0, 0, 0] [9, 9, 9] = some ([2, 6, 0], [1, 0, 1]) := by
    simp [write_optional_any, write_loop]
  refine ⟨by decide, by decide, heval, ?_⟩
  exact (((write_optional_any_packs_values (fun x : Nat => x * 2) [some 1, none, some 3]
    [0, 0, 0] [9, 9, 9] (by decide) (by decide)).2) [2, 6, 0] [1, 0, 1] heval).1

/-! ### Time claims: well-formed inputs and manual values -/

/-- The two ASCII digits of a 2-digit zero-padded field. -/
def two_digit_bytes (x : Nat) : List Nat := [48 + x / 10, 48 + x % 10]

/-- A well-formed time string: `HH:MM:SS` plus an optional dot and
fractional digit string. -/
def time_text (h m s : Nat) (frac : List Nat) : List Nat :=
  two_digit_bytes h ++ [58] ++ two_digit_bytes m ++ [58] ++ two_digit_bytes s
    ++ (if frac.isEmpty then [] else [46] ++ frac)

/-- Manual value of a fractional digit string (most significant first). -/
def fracValue (frac : List Nat) : Nat :=
  frac.foldl (fun a c => a * 10 + (c - 48)) 0

theorem from_radix_10_acc_all_digits (frac : List Nat)
    (hd : ∀ c ∈ frac, 48 ≤ c ∧ c ≤ 57) :
    ∀ acc consumed, from_radix_10_acc frac acc consumed
      = (frac.foldl (fun a c => a * 10 + (c - 48)) acc, consumed + frac.length) := by
  induction frac with
  | nil => intro acc consumed; rfl
  | cons c rest ih =>
    intro acc consumed
    have hc := hd c (by simp)
    show (if 48 ≤ c ∧ c ≤ 57 then
        from_radix_10_acc rest (acc * 10 + (c - 48)) (consumed + 1)
      else (acc, consumed)) = _
    rw [if_pos hc, ih (fun x hx => hd x (by simp [hx])) (acc * 10 + (c - 48))
      (consumed + 1)]
    simp only [List.foldl_cons, List.length_cons]
    rw [show consumed + 1 + rest.length = consumed + (rest.length + 1) by omega]

theorem from_radix_10_all_digits (frac : List Nat)
    (hd : ∀ c ∈ frac, 48 ≤ c ∧ c ≤ 57) :
    from_radix_10 frac = (fracValue frac, frac.length) := by
  unfold from_radix_10 fracValue
  rw [from_radix_10_acc_all_digits frac hd 0 0]
  simp

theorem from_radix_10_two_digits (x : Nat) (hx : x < 100) :
    from_radix_10 (two_digit_bytes x) = (x, 2) := by
  have h1 : 48 ≤ 48 + x / 10 ∧ 48 + x / 10 ≤ 57 := by omega
  have h2 : 48 ≤ 48 + x % 10 ∧ 48 + x % 10 ≤ 57 := by omega
  unfold two_digit_bytes from_radix_10
  show (if 48 ≤ 48 + x / 10 ∧ 48 + x / 10 ≤ 57 then
      from_radix_10_acc [48 + x % 10] (0 * 10 + (48 + x / 10 - 48)) (0 + 1)
    else _) = _
  rw [if_pos h1]
  show (if 48 ≤ 48 + x % 10 ∧ 48 + x % 10 ≤ 57 then
      from_radix_10_acc [] ((0 * 10 + (48 + x / 10 - 48)) * 10 + (48 + x % 10 - 48))
        (0 + 1 + 1)
    else _) = _
  rw [if_pos h2]
  show (((0 * 10 + (48 + x / 10 - 48)) * 10 + (48 + x % 10 - 48)), 0 + 1 + 1) = (x, 2)
  have : (0 * 10 + (48 + x / 10 - 48)) * 10 + (48 + x % 10 - 48) = x := by omega
  rw [this]

theorem foldl_digits_lt (frac : List Nat) (hd : ∀ c ∈ frac, 48 ≤ c ∧ c ≤ 57) :
    ∀ acc, frac.foldl (fun a c => a * 10 + (c - 48)) acc < (acc + 1) * 10 ^ frac.length := by
  induction frac with
  | nil => intro acc; simp
  | cons c rest ih =>
    intro acc
    have hc := hd c (by simp)
    simp only [List.foldl_cons, List.length_cons]
    calc List.foldl (fun a c => a * 10 + (c - 48)) (acc * 10 + (c - 48)) rest
        < (acc * 10 + (c - 48) + 1) * 10 ^ rest.length :=
          ih (fun x hx => hd x (by simp [hx])) _
      _ ≤ ((acc + 1) * 10) * 10 ^ rest.length := by
          apply Nat.mul_le_mul_right
          omega
      _ = (acc + 1) * 10 ^ (rest.length + 1) := by ring

theorem fracValue_lt (frac : List Nat) (hd : ∀ c ∈ frac, 48 ≤ c ∧ c ≤ 57) :
    fracValue frac < 10 ^ frac.length := by
  have := foldl_digits_lt frac hd 0
  simpa [fracValue] using this

/-- The eight fixed header bytes of a well-formed time string, followed by
an arbitrary tail. -/
def hms_bytes (h m s : Nat) (tail : List Nat) : List Nat :=
  (48 + h / 10) :: (48 + h % 10) :: 58 :: (48 + m / 10) :: (48 + m % 10) :: 58
    :: (48 + s / 10) :: (48 + s % 10) :: tail

theorem time_text_eq_hms_bytes (h m s : Nat) (frac : List Nat) :
    time_text h m s frac
      = hms_bytes h m s (if frac.isEmpty then [] else 46 :: frac) := by
  rcases frac with _ | ⟨c, rest⟩ <;> simp [time_text, two_digit_bytes, hms_bytes]

theorem hms_bytes_length (h m s : Nat) (tail : List Nat) :
    (hms_bytes h m s tail).length = 8 + tail.length := by
  simp [hms_bytes]
  omega

theorem parse_time_hms_bytes (h m s : Nat) (hh : h < 100) (hm : m < 100)
    (hs : s < 100) (tail : List Nat) :
    parse_time (hms_bytes h m s tail)
      = if 1 < tail.length then
          (let p := from_radix_10 (tail.drop 1)
          if p.1 < 2 ^ 32 then
            from_hms_nano h m s (
              if p.2 ≤ 8 then p.1 * 10 ^ (9 - p.2)
              else if p.2 = 9 then p.1
              else p.1 / 10 ^ (p.2 - 9))
          else none)
        else from_hms_nano h m s 0 := by
  have g1 : (from_radix_10 (((hms_bytes h m s tail).drop 0).take 2)).1 = h := by
    rw [show ((hms_bytes h m s tail).drop 0).take 2 = two_digit_bytes h from rfl,
      from_radix_10_two_digits h hh]
  have g2 : (from_radix_10 (((hms_bytes h m s tail).drop 3).take 2)).1 = m := by
    rw [show ((hms_bytes h m s tail).drop 3).take 2 = two_digit_bytes m from rfl,
      from_radix_10_two_digits m hm]
  have g3 : (from_radix_10 (((hms_bytes h m s tail).drop 6).take 2)).1 = s := by
    rw [show ((hms_bytes h m s tail).drop 6).take 2 = two_digit_bytes s from rfl,
      from_radix_10_two_digits s hs]
  have e4 : (hms_bytes h m s tail).drop 9 = tail.drop 1 := rfl
  simp only [parse_time, hms_bytes_length, g1, g2, g3, e4]
  rw [if_neg (by omega)]
  by_cases htail : 1 < tail.length
  · rw [if_pos (by omega), if_pos htail]
  · rw [if_neg (by omega), if_neg htail]

theorem parse_time_time_text_nofrac (h m s : Nat) (hh : h < 100) (hm : m < 100)
    (hs : s < 100) :
    parse_time (time_text h m s []) = from_hms_nano h m s 0 := by
  have htail0 : (if ([] : List Nat).isEmpty then ([] : List Nat) else 46 :: []) = [] := rfl
  rw [time_text_eq_hms_bytes, htail0, parse_time_hms_bytes h m s hh hm hs]
  rfl

theorem parse_time_time_text_frac (h m s : Nat) (hh : h < 100) (hm : m < 100)
    (hs : s < 100) (frac : List Nat) (hd : ∀ c ∈ frac, 48 ≤ c ∧ c ≤ 57)
    (hne : frac ≠ []) (hu32 : fracValue frac < 2 ^ 32) :
    parse_time (time_text h m s frac)
      = from_hms_nano h m s (
          if frac.length ≤ 8 then fracValue frac * 10 ^ (9 - frac.length)
          else if frac.length = 9 then fracValue frac
          else fracValue frac / 10 ^ (frac.length - 9)) := by
  have hflen : 1 ≤ frac.length := List.length_pos.mpr hne
  have htail : (if frac.isEmpty then ([] : List Nat) else 46 :: frac) = 46 :: frac := by
    simp [hne]
  rw [time_text_eq_hms_bytes, htail, parse_time_hms_bytes h m s hh hm hs]
  rw [if_pos (by simp [List.length_cons]; omega)]
  have e1 : ((46 :: frac).drop 1) = frac := rfl
  simp only [e1, from_radix_10_all_digits frac hd]
  rw [if_pos hu32]

theorem parse_time_time_text_padded (h m s : Nat) (hh : h < 24) (hm : m < 60)
    (hs : s < 60) (frac : List Nat) (hd : ∀ c ∈ frac, 48 ≤ c ∧ c ≤ 57)
    (hlen : frac.length ≤ 9) :
    parse_time (time_text h m s frac)
      = some ⟨h, m, s, fracValue frac * 10 ^ (9 - frac.length)⟩ := by
  have hv : fracValue frac * 10 ^ (9 - frac.length) < 10 ^ 9 := by
    calc fracValue frac * 10 ^ (9 - frac.length)
        < 10 ^ frac.length * 10 ^ (9 - frac.length) := by
          exact (Nat.mul_lt_mul_right (by positivity)).mpr (fracValue_lt frac hd)
      _ = 10 ^ 9 := by
          rw [← pow_add]
          congr 1
          omega
  rcases em (frac = []) with hemp | hne
  · subst hemp
    rw [parse_time_time_text_nofrac h m s (by omega) (by omega) (by omega)]
    unfold from_hms_nano
    rw [if_pos (by refine ⟨hh, hm, hs, by norm_num⟩)]
    simp [fracValue]
  · have hu32 : fracValue frac < 2 ^ 32 := by
      have := fracValue_lt frac hd
      have h10 : (10 : Nat) ^ frac.length ≤ 10 ^ 9 := Nat.pow_le_pow_right (by omega) hlen
      omega
    rw [parse_time_time_text_frac h m s (by omega) (by omega) (by omega) frac hd hne hu32]
    have hnano : (if frac.length ≤ 8 then fracValue frac * 10 ^ (9 - frac.length)
        else if frac.length = 9 then fracValue frac
        else fracValue frac / 10 ^ (frac.length - 9))
          = fracValue frac * 10 ^ (9 - frac.length) := by
      rcases em (frac.length ≤ 8) with h8 | h8
      · rw [if_pos h8]
      · rw [if_neg h8, if_pos (by omega), show 9 - frac.length = 0 by omega]
        norm_num
    rw [hnano]
    unfold from_hms_nano
    rw [if_pos (by exact ⟨hh, hm, hs, by omega⟩)]

theorem time_nanos_mk (h m s nano : Nat) :
    time_nanos ⟨h, m, s, nano⟩ = (h * 3600 + m * 60 + s) * 1000000000 + nano := rfl

theorem nanos_to_millis (X nano : Nat) :
    (X * 1000000000 + nano) / 1000000 = X * 1000 + nano / 1000000 := by
  rw [show X * 1000000000 = 1000000 * (X * 1000) by ring,
    Nat.mul_add_div (by norm_num)]

theorem nanos_to_micros (X nano : Nat) :
    (X * 1000000000 + nano) / 1000 = X * 1000000 + nano / 1000 := by
  rw [show X * 1000000000 = 1000 * (X * 1000000) by ring,
    Nat.mul_add_div (by norm_num)]

theorem time_into_physical_i32_mk (input : List Nat) (h m s nano : Nat)
    (hp : parse_time input = some ⟨h, m, s, nano⟩) :
    time_into_physical_i32 input
      = some ((((h * 3600 + m * 60 + s) * 1000 + nano / 1000000 : Nat)) : Int) := by
  unfold time_into_physical_i32
  rw [hp]
  simp only [Option.map_some']
  congr 1
  rw [time_nanos_mk]
  rw [show ((((h * 3600 + m * 60 + s) * 1000000000 + nano : Nat)) : Int) / (1000000 : Int)
    = ((((h * 3600 + m * 60 + s) * 1000000000 + nano) / 1000000 : Nat) : Int) from by
      exact_mod_cast rfl]
  rw [nanos_to_millis]

theorem time_into_physical_i64_mk (input : List Nat) (h m s nano : Nat)
    (hp : parse_time input = some ⟨h, m, s, nano⟩) :
    time_into_physical_i64 input
      = some ((((h * 3600 + m * 60 + s) * 1000000 + nano / 1000 : Nat)) : Int) := by
  unfold time_into_physical_i64
  rw [hp]
  simp only [Option.map_some']
  congr 1
  rw [time_nanos_mk]
  rw [show ((((h * 3600 + m * 60 + s) * 1000000000 + nano : Nat)) : Int) / (1000 : Int)
    = ((((h * 3600 + m * 60 + s) * 1000000000 + nano) / 1000 : Nat) : Int) from by
      exact_mod_cast rfl]
  rw [nanos_to_micros]

/-- C6: for every well-formed time `HH:MM:SS` with 0-9 fractional digits,
parsing and converting to milliseconds (i32) or microseconds (i64) since
midnight matches the manual calculation (seconds scaled, plus the fraction
right-padded with zeros to nanoseconds and truncated to the target
resolution), the microsecond value is monotone in the fractional value,
and beyond 9 fractional digits the excess digits are truncated (not
rounded): `12:17:51.123456789` yields 123456 microseconds of fraction. -/
theorem time_parse_matches_manual_calculation (h m s : Nat) (frac : List Nat)
    (hh : h < 24) (hm : m < 60) (hs : s < 60)
    (hd : ∀ c ∈ frac, 48 ≤ c ∧ c ≤ 57) (hlen : frac.length ≤ 9) :
    time_into_physical_i32 (time_text h m s frac)
        = some (((h * 3600 + m * 60 + s) * 1000
            + fracValue frac * 10 ^ (9 - frac.length) / 1000000 : Nat) : Int)
    ∧ time_into_physical_i64 (time_text h m s frac)
        = some (((h * 3600 + m * 60 + s) * 1000000
            + fracValue frac * 10 ^ (9 - frac.length) / 1000 : Nat) : Int)
    ∧ (∀ frac2 : List Nat, (∀ c ∈ frac2, 48 ≤ c ∧ c ≤ 57) → frac2.length ≤ 9 →
        fracValue frac * 10 ^ (9 - frac.length)
            ≤ fracValue frac2 * 10 ^ (9 - frac2.length) →
        ∀ a b : Int, time_into_physical_i64 (time_text h m s frac) = some a →
          time_into_physical_i64 (time_text h m s frac2) = some b → a ≤ b)
    ∧ (∀ fracL : List Nat, (∀ c ∈ fracL, 48 ≤ c ∧ c ≤ 57) → 9 < fracL.length →
        fracValue fracL < 2 ^ 32 →
        parse_time (time_text h m s fracL)
          = some ⟨h, m, s, fracValue fracL / 10 ^ (fracL.length - 9)⟩)
    ∧ time_into_physical_i64 (time_text 12 17 51 [49, 50, 51, 52, 53, 54, 55, 56, 57])
        = some ((12 * 3600 + 17 * 60 + 51) * 1000000 + 123456) := by
  have hp := parse_time_time_text_padded h m s hh hm hs frac hd hlen
  refine ⟨time_into_physical_i32_mk _ h m s _ hp,
    time_into_physical_i64_mk _ h m s _ hp, ?_, ?_, ?_⟩
  · intro frac2 hd2 hlen2 hmono a b ha hb
    have hp2 := parse_time_time_text_padded h m s hh hm hs frac2 hd2 hlen2
    rw [time_into_physical_i64_mk _ h m s _ hp] at ha
    rw [time_into_physical_i64_mk _ h m s _ hp2] at hb
    have ha2 := Option.some.inj ha
    have hb2 := Option.some.inj hb
    rw [← ha2, ← hb2]
    have hnat : (h * 3600 + m * 60 + s) * 1000000
          + fracValue frac * 10 ^ (9 - frac.length) / 1000
        ≤ (h * 3600 + m * 60 + s) * 1000000
          + fracValue frac2 * 10 ^ (9 - frac2.length) / 1000 := by
      have := Nat.div_le_div_right (c := 1000) hmono
      omega
    exact_mod_cast hnat
  · intro fracL hdL hlenL hu32
    have hne : fracL ≠ [] := by
      intro hcon
      rw [hcon] at hlenL
      simp at hlenL
    rw [parse_time_time_text_frac h m s (by omega) (by omega) (by omega) fracL hdL
      hne hu32]
    rw [if_neg (by omega), if_neg (by omega)]
    have hnano : fracValue fracL / 10 ^ (fracL.length - 9) < 2000000000 := by
      have h10 : (10 : Nat) ≤ 10 ^ (fracL.length - 9) := by
        calc (10 : Nat) = 10 ^ 1 := by norm_num
          _ ≤ 10 ^ (fracL.length - 9) := Nat.pow_le_pow_right (by norm_num) (by omega)
      have hdl : fracValue fracL / 10 ^ (fracL.length - 9) ≤ fracValue fracL / 10 :=
        Nat.div_le_div_left h10 (by norm_num)
      have h2 : fracValue fracL / 10 < 2000000000 := by omega
      omega
    unfold from_hms_nano
    rw [if_pos (by exact ⟨hh, hm, hs, hnano⟩)]
  · have hp9 := parse_time_time_text_padded 12 17 51 (by norm_num) (by norm_num)
      (by norm_num) [49, 50, 51, 52, 53, 54, 55, 56, 57] (by decide) (by decide)
    rw [time_into_physical_i64_mk _ 12 17 51 _ hp9]
    norm_num [fracValue]

theorem time_parse_matches_manual_calculation_witness :
    (12 < 24) ∧ (17 < 60) ∧ (51 < 60)
    ∧ (∀ c ∈ ([49, 50, 51] : List Nat), 48 ≤ c ∧ c ≤ 57)
    ∧ ([49, 50, 51] : List Nat).length ≤ 9
    ∧ time_into_physical_i32 (time_text 12 17 51 [49, 50, 51])
        = some (((12 * 3600 + 17 * 60 + 51) * 1000
            + fracValue [49, 50, 51] * 10 ^ (9 - ([49, 50, 51] : List Nat).length)
                / 1000000 : Nat) : Int) := by
  refine ⟨by decide, by decide, by decide, by decide, by decide, ?_⟩
  exact (time_parse_matches_manual_calculation 12 17 51 [49, 50, 51] (by decide)
    (by decide) (by decide) (by decide) (by decide)).1

/-- C7 counterexample: the malformed time text "ab:cd:ef" (every field
non-digit) is not reported as a decode failure: parsing silently succeeds
with the wrong value midnight, because the field parses return 0 for
non-digit bytes and nothing checks how many bytes were consumed. -/
theorem parse_time_accepts_malformed :
    parse_time [97, 98, 58, 99, 100, 58, 101, 102] = some ⟨0, 0, 0, 0⟩ := by
  decide

/-- C7 (amended): malformed time input is never reported as an error
value: inputs shorter than 8 bytes panic on the field slices (modelled
`none`), out-of-range components panic inside `from_hms_nano` (modelled
`none`), and non-digit bytes inside the 2-digit fields are silently
parsed as 0 or a partial value, yielding a successful parse of a wrong
time. -/
theorem parse_time_malformed_never_an_error :
    (∀ input : List Nat, input.length < 8 → parse_time input = none)
    ∧ parse_time [57, 57, 58, 57, 57, 58, 57, 57] = none
    ∧ parse_time [97, 98, 58, 99, 100, 58, 101, 102] = some ⟨0, 0, 0, 0⟩ := by
  refine ⟨?_, by decide, by decide⟩
  intro input hlen
  unfold parse_time
  rw [if_pos hlen]

theorem parse_time_malformed_never_an_error_witness :
    ([49, 50] : List Nat).length < 8 ∧ parse_time [49, 50] = none :=
  ⟨by decide, parse_time_malformed_never_an_error.1 [49, 50] (by decide)⟩
